import Mathlib

/-!
Shallow embedding of the circular-import check of thriftcheck
(`checks/circular_imports.go`) together with theorems settling the
specification claims about it.

Modelling conventions:
* file paths are `String`s; vertex ids are `Nat`s;
* Go maps whose key sets matter (`adjList`, `inDegrees`, `edgeMeta`) are
  modelled as total functions (Go map reads of a missing key yield the zero
  value) plus an explicit key list in insertion order; Go's map iteration
  order is unspecified, the model fixes insertion order;
* Go's `os.Getwd`/`filepath` path normalization (`getRelPath`) is external
  to the repository; it is modelled by a parameter `rel : String → Option
  String` (`none` = normalization error);
* in-place mutation of the `inDegrees` map by `lookForCycle` is rendered by
  returning the final map;
* the `panic("unreachable ...")` branch of `findCycleVertices` is rendered
  as the `none` result;
* the unbounded `for` loop of `lookForCycle` and the recursion of `dfs` are
  given explicit fuel; the fuel actually used (`|V| + 1`) is proved
  sufficient (fuel-insensitivity) for every graph the visit function can
  accumulate, which is the termination claim.
-/

namespace Thriftcheck

/-- One `ast.Include` node: the literal include path text plus the source
location recorded by the parser. -/
structure Include where
  path : String
  line : Nat
  column : Nat
deriving DecidableEq

/-- The shared state `C` of the circular-import multi-file check.
`verts` is the key set of `adjList`/`inDegrees` (always populated
together), in insertion order; `emKeys` is the key set of the outer
`edgeMeta` map. -/
structure CState where
  verts : List Nat
  adj : Nat → List Nat
  emKeys : List Nat
  edgeMeta : Nat → Nat → Option Include
  deg : Nat → Int
  filenameToId : List (String × Nat)
  idToFilename : List (Nat × String)

/-- Association-list lookup (Go map read). -/
def alookup {α β : Type} [DecidableEq α] : List (α × β) → α → Option β
  | [], _ => none
  | p :: rest, a => if p.1 = a then some p.2 else alookup rest a

/-- Go `getFilenameId`: assign `len(filenameToId) + 1` on first sight,
return the stored id. -/
def getFilenameId (c : CState) (f : String) : CState × Nat :=
  match alookup c.filenameToId f with
  | some id => (c, id)
  | none =>
    let nextId := c.filenameToId.length + 1
    ({ c with
        filenameToId := c.filenameToId ++ [(f, nextId)],
        idToFilename := c.idToFilename ++ [(nextId, f)] }, nextId)

/-- The per-vertex initialization loop of the visit function: if `v` is not
yet a key of `adjList`, set `inDegrees[v] = 0` and `adjList[v] = []`. -/
def ensureVertex (c : CState) (v : Nat) : CState :=
  if v ∈ c.verts then c
  else
    { c with
        verts := c.verts ++ [v],
        deg := fun x => if x = v then 0 else c.deg x,
        adj := fun x => if x = v then [] else c.adj x }

/-- The statements `cc.inDegrees[b] += 1` and
`cc.adjList[a] = append(cc.adjList[a], b)` of the visit function. -/
def insertEdge (c : CState) (a b : Nat) : CState :=
  { c with
      deg := fun x => if x = b then c.deg x + 1 else c.deg x,
      adj := fun x => if x = a then c.adj x ++ [b] else c.adj x }

/-- The edge-metadata statements of the visit function.  Faithful to the
source: the existence test is on `cc.edgeMeta[a]` — the importer's whole
inner map — so the inner map (holding only the current importee's node) is
created solely when importer `a` has never stored any metadata before. -/
def recordEdgeMeta (c : CState) (a b : Nat) (i : Include) : CState :=
  if a ∈ c.emKeys then c
  else
    { c with
        emKeys := c.emKeys ++ [a],
        edgeMeta := fun x y =>
          if x = a then (if y = b then some i else none)
          else c.edgeMeta x y }

/-- The visit function `fn` of `CheckCircularImport`, for one `Include`
node `i` seen while visiting file `filename`.  `rel` stands for
`getRelPath` (working-directory-relative normalization, external). -/
def checkCircularImportVisit (rel : String → Option String) (c : CState)
    (filename : String) (i : Include) : CState :=
  match rel filename with
  | none => c
  | some importer =>
    match rel i.path with
    | none => c
    | some importee =>
      let p := getFilenameId c importer
      let q := getFilenameId p.1 importee
      let a := p.2
      let b := q.2
      let c2 := ensureVertex (ensureVertex q.1 a) b
      recordEdgeMeta (insertEdge c2 a b) a b i

/-- The state `circularImportCtx` as created at check-registration time. -/
def initialC : CState :=
  { verts := [], adj := fun _ => [], emKeys := [],
    edgeMeta := fun _ _ => none, deg := fun _ => 0,
    filenameToId := [], idToFilename := [] }

/-- Folding the visit function over a run's sequence of
(visited filename, include node) events, from the fresh state. -/
def runVisits (rel : String → Option String)
    (events : List (String × Include)) : CState :=
  events.foldl (fun c e => checkCircularImportVisit rel c e.1 e.2) initialC

/-- One neighbor step of the worklist pass of `lookForCycle`:
`inDegrees[v] -= 1; if inDegrees[v] == 0 { count += 1;
newSources = append(sources, v) }`.  Note the defect kept faithfully from
the source: the append extends the current generation `sources`, not the
accumulating `newSources`, so an earlier newly-zeroed vertex of the same
generation is clobbered and the whole old worklist is carried over. -/
def kahnVisitNbr (sources : List Nat)
    (acc : (Nat → Int) × Nat × List Nat) (v : Nat) :
    (Nat → Int) × Nat × List Nat :=
  let d := fun x => if x = v then acc.1 x - 1 else acc.1 x
  if d v = 0 then (d, acc.2.1 + 1, sources ++ [v])
  else (d, acc.2.1, acc.2.2)

/-- One generation of the worklist pass: iterate over `sources`, then over
each source's adjacency list.  Returns the updated in-degree map, the
updated processed count, and the next worklist. -/
def kahnGen (adj : Nat → List Nat) (sources : List Nat)
    (deg : Nat → Int) (count : Nat) : (Nat → Int) × Nat × List Nat :=
  sources.foldl
    (fun acc source => (adj source).foldl (kahnVisitNbr sources) acc)
    (deg, count, [])

/-- The `for len(sources) != 0` loop of `lookForCycle`, with explicit fuel
(the Go loop is unbounded; fuel `|V| + 1` is proved sufficient below). -/
def kahnLoop (adj : Nat → List Nat) :
    Nat → List Nat → (Nat → Int) → Nat → (Nat → Int) × Nat
  | 0, _, deg, count => (deg, count)
  | fuel + 1, sources, deg, count =>
    if sources = [] then (deg, count)
    else
      let g := kahnGen adj sources deg count
      kahnLoop adj fuel g.2.2 g.1 g.2.1

/-- The scan `for i, v := range vertices { if v == cur { return
vertices[i:] } }`: the suffix of the DFS path starting at the first
occurrence of `cur`, or `none` when `cur` is not on the path. -/
def pathSuffix : List Nat → Nat → Option (List Nat)
  | [], _ => none
  | v :: rest, cur =>
    if v = cur then some (v :: rest) else pathSuffix rest cur

/-- Marking a vertex in a Go `map[int]bool` used as a set. -/
def markT (s : Nat → Bool) (v : Nat) : Nat → Bool :=
  fun x => if x = v then true else s x

/-- Go `dfs`, with explicit recursion fuel.  Returns the found cycle (if
any) together with the final `vis` and `globalVis` maps (both are mutated
in place in Go and shared across sibling recursive calls).  Go's early
`return` out of the neighbor loop is rendered by a fold whose accumulator
is left untouched once a cycle has been found. -/
def dfsF (adj : Nat → List Nat) :
    Nat → Nat → List Nat → (Nat → Bool) → (Nat → Bool) →
    Option (List Nat) × (Nat → Bool) × (Nat → Bool)
  | 0, _, _, vis, gvis => (none, vis, gvis)
  | fuel + 1, cur, vertices, vis, gvis =>
    match (if vis cur then pathSuffix vertices cur else none) with
    | some cyc => (some cyc, vis, gvis)
    | none =>
      if gvis cur then (none, vis, gvis)
      else
        (adj cur).foldl
          (fun acc v =>
            match acc.1 with
            | some _ => acc
            | none => dfsF adj fuel v (vertices ++ [cur]) acc.2.1 acc.2.2)
          (none, markT vis cur, markT gvis cur)

/-- Go `findCycleVertices` with explicit DFS fuel: run `dfs` from every
vertex (fresh `vis` each, shared `globalVis`), returning the first cycle
found; `none` models the `panic("unreachable ...")` fall-through. -/
def findCycleVerticesF (fuel : Nat) (verts : List Nat)
    (adj : Nat → List Nat) : Option (List Nat) :=
  (verts.foldl
    (fun (acc : Option (List Nat) × (Nat → Bool)) v =>
      match acc.1 with
      | some _ => acc
      | none =>
        let r := dfsF adj fuel v [] (fun _ => false) acc.2
        (r.1, r.2.2))
    (none, fun _ => false)).1

/-- Go `findCycleVertices` at the fuel used by the development. -/
def findCycleVertices (verts : List Nat) (adj : Nat → List Nat) :
    Option (List Nat) :=
  findCycleVerticesF (verts.length + 1) verts adj

/-- Go `lookForCycle` with explicit fuels.  Besides the Go results (cycle
vertex list and verdict), it returns the final in-degree map (the Go code
decrements the caller's map in place) and the internal processed `count`. -/
def lookForCycleF (kfuel dfuel : Nat) (verts : List Nat)
    (adj : Nat → List Nat) (deg : Nat → Int) :
    ((Nat → Int) × Nat) × Option (List Nat) × Bool :=
  let sources := verts.filter (fun v => decide (deg v = 0))
  let r := kahnLoop adj kfuel sources deg sources.length
  if r.2 ≠ verts.length then (r, findCycleVerticesF dfuel verts adj, true)
  else (r, none, false)

/-- Go `lookForCycle` at the fuels used by the development. -/
def lookForCycle (verts : List Nat) (adj : Nat → List Nat)
    (deg : Nat → Int) : ((Nat → Int) × Nat) × Option (List Nat) × Bool :=
  lookForCycleF (verts.length + 1) (verts.length + 1) verts adj deg

/-- One printed record of the finalize function: the importing file (id
and name) and the `Include` node fetched from `edgeMeta` for the cycle
edge.  `inc = none` models the nil pointer the Go code would dereference
(a crash). -/
structure Diagnostic where
  fromId : Nat
  fromFile : Option String
  inc : Option Include
deriving DecidableEq

/-- The finalize function passed to `NewMultiFileCheck`: run
`lookForCycle` and, when a cycle was both flagged and extracted, emit one
record per cycle edge (consecutive pairs, closing back to the first). -/
def checkCircularImportFinalize (st : CState) :
    List Diagnostic × Option (List Nat) × Bool :=
  let r := lookForCycle st.verts st.adj st.deg
  match r.2.1 with
  | some imports =>
    ((List.range imports.length).map (fun k =>
      let im := imports.getD k 0
      { fromId := im,
        fromFile := alookup st.idToFilename im,
        inc := st.edgeMeta im (imports.getD ((k + 1) % imports.length) 0) }),
      r.2)
  | none => ([], r.2)

/-! ## Specification-side notions (from the spec's words, for stating
claims; these are not translations of repository code). -/

/-- Specification-side: index of `u` in `order` (list length if absent). -/
def idxOfN : List Nat → Nat → Nat
  | [], _ => 0
  | v :: rest, u => if v = u then 0 else idxOfN rest u + 1

/-- Specification-side: `order` witnesses acyclicity of `(verts, adj)`:
it enumerates the vertex set and every edge goes strictly forward. -/
def topoOrderOk (verts : List Nat) (adj : Nat → List Nat)
    (order : List Nat) : Bool :=
  verts.all (fun u => order.contains u) &&
    order.all (fun u => verts.contains u) &&
      verts.all (fun u =>
        (adj u).all (fun v => decide (idxOfN order u < idxOfN order v)))

/-- Specification-side: `cyc` is a nonempty vertex list every consecutive
pair of which (closing back from the last to the first) is an edge. -/
def isCycleList (adj : Nat → List Nat) (cyc : List Nat) : Bool :=
  !cyc.isEmpty &&
    (List.range cyc.length).all (fun k =>
      (adj (cyc.getD k 0)).contains (cyc.getD ((k + 1) % cyc.length) 0))

/-- Specification-side: the edge multiset of the accumulated graph written
with file names (vertex ids are only a run-local convenience). -/
def nameEdges (st : CState) : List (Option String × Option String) :=
  (st.verts.map (fun u => (st.adj u).map (fun v =>
    (alookup st.idToFilename u, alookup st.idToFilename v)))).flatten

/-! ## Concrete runs used by the claim theorems. -/

/-- Normalization in which every path resolves to itself (all files sit in
the working directory). -/
def relId : String → Option String := fun s => some s

/-- Normalization that always fails. -/
def relNone : String → Option String := fun _ => none

/-- Normalization merging two textual paths into one normalized file. -/
def relDup : String → Option String := fun s =>
  if s = "b1.thrift" ∨ s = "b2.thrift" then some "b.thrift" else some s

def incA : Include := ⟨"a.thrift", 1, 1⟩
def incB : Include := ⟨"b.thrift", 2, 1⟩
def incC : Include := ⟨"c.thrift", 3, 1⟩
def incD : Include := ⟨"d.thrift", 4, 1⟩
def incX : Include := ⟨"x.thrift", 5, 1⟩
def incB1 : Include := ⟨"b1.thrift", 6, 1⟩
def incB2 : Include := ⟨"b2.thrift", 7, 1⟩

/-- Acyclic diamond-ish run: a→b, a→c, b→d (ids a=1, b=2, c=3, d=4). -/
def evAcy : List (String × Include) :=
  [("a.thrift", incB), ("a.thrift", incC), ("b.thrift", incD)]

def gAcy : CState := runVisits relId evAcy

/-- The same include multiset as `evAcy`, visited in a different order
(ids a=1, c=2, b=3, d=4). -/
def evAcy2 : List (String × Include) :=
  [("a.thrift", incC), ("a.thrift", incB), ("b.thrift", incD)]

def gAcy2 : CState := runVisits relId evAcy2

/-- Cyclic run: s→x, s→a, a→b, b→a (ids s=1, x=2, a=3, b=4). -/
def evCyc : List (String × Include) :=
  [("s.thrift", incX), ("s.thrift", incA), ("a.thrift", incB),
    ("b.thrift", incA)]

def gCyc : CState := runVisits relId evCyc

/-- File a includes c then b (ids a=1, c=2, b=3). -/
def evMeta : List (String × Include) :=
  [("a.thrift", incC), ("a.thrift", incB)]

def gMeta : CState := runVisits relId evMeta

/-- File a includes c then b, and b includes a back (ids a=1, c=2, b=3). -/
def evMetaCyc : List (String × Include) :=
  [("a.thrift", incC), ("a.thrift", incB), ("b.thrift", incA)]

def gMetaCyc : CState := runVisits relId evMetaCyc

/-- A single edge a→b (ids a=1, b=2). -/
def evOne : List (String × Include) := [("a.thrift", incB)]

def gOne : CState := runVisits relId evOne

/-- File a includes the same file b twice via two textual paths
(ids a=1, b=2). -/
def evDup : List (String × Include) :=
  [("a.thrift", incB1), ("a.thrift", incB2)]

def gDup : CState := runVisits relDup evDup

/-! ## Association-list lemmas. -/

theorem alookup_append_some {α β : Type} [DecidableEq α]
    {m : List (α × β)} {a : α} {b : β} (l : List (α × β))
    (h : alookup m a = some b) : alookup (m ++ l) a = some b := by
  induction m with
  | nil => simp [alookup] at h
  | cons p rest ih =>
    by_cases hp : p.1 = a
    · simp only [alookup, hp, if_true, List.cons_append, if_pos] at h ⊢
      exact h
    · simp only [alookup, hp, if_false, List.cons_append] at h ⊢
      exact ih h

theorem alookup_append_none {α β : Type} [DecidableEq α]
    {m : List (α × β)} {a : α} (l : List (α × β))
    (h : alookup m a = none) : alookup (m ++ l) a = alookup l a := by
  induction m with
  | nil => simp
  | cons p rest ih =>
    by_cases hp : p.1 = a
    · simp [alookup, hp] at h
    · simp only [alookup, hp, if_false] at h
      simpa only [List.cons_append, alookup, hp, if_false] using ih h

/-! ## Well-formedness of the filename-id table. -/

/-- The entry values of the filename-id table are `k + 1, k + 2, …` in
list order (so with `k = 0`: ids 1, 2, 3, … in order of first sight). -/
def FWfFrom : Nat → List (String × Nat) → Prop
  | _, [] => True
  | k, p :: rest => p.2 = k + 1 ∧ FWfFrom (k + 1) rest

/-- Ids in the filename-id table are exactly 1, 2, 3, … in order of first
sight of the paths. -/
def FWf (m : List (String × Nat)) : Prop := FWfFrom 0 m

theorem fwfFrom_append {l : List (String × Nat)} :
    ∀ (k : Nat) (m : List (String × Nat)), FWfFrom k m →
      FWfFrom (k + m.length) l → FWfFrom k (m ++ l) := by
  intro k m
  induction m generalizing k with
  | nil => intro _ h; simpa using h
  | cons p rest ih =>
    intro hm hl
    refine ⟨hm.1, ih (k + 1) hm.2 ?_⟩
    have : k + 1 + rest.length = k + (p :: rest).length := by
      simp [Nat.add_comm, Nat.add_assoc, Nat.add_left_comm]
    rw [this]
    exact hl

/-! ## Structural invariants of reachable shared states. -/

/-- Changing the value of `g` relative to `f` at a single list element `a`
changes the mapped sum by exactly the difference at `a`. -/
theorem map_sum_update {l : List Nat} {f g : Nat → Int} {a : Nat} {d : Int}
    (hnd : l.Nodup) (ha : a ∈ l) (hoth : ∀ u ∈ l, u ≠ a → g u = f u)
    (hga : g a = f a + d) :
    (l.map g).sum = (l.map f).sum + d := by
  induction l with
  | nil => cases ha
  | cons x xs ih =>
    have hx := List.nodup_cons.mp hnd
    rcases List.mem_cons.mp ha with rfl | hmem
    · have heq : xs.map g = xs.map f := by
        apply List.map_congr_left
        intro u hu
        exact hoth u (List.mem_cons_of_mem _ hu)
          (fun he => hx.1 (he ▸ hu))
      simp only [List.map_cons, List.sum_cons, heq, hga]
      omega
    · have hxa : x ≠ a := fun he => hx.1 (he ▸ hmem)
      have hgx : g x = f x := hoth x (List.mem_cons_self _ _) hxa
      have hrec := ih hx.2 hmem
        (fun u hu hne => hoth u (List.mem_cons_of_mem _ hu) hne)
      simp only [List.map_cons, List.sum_cons, hgx, hrec]
      omega

/-- Invariants maintained by the visit function: vertex list without
duplicates, every vertex has an assigned id, adjacency and in-degree are
zero outside the vertex set, edge targets are vertices, and each vertex's
in-degree equals its total occurrence count over all adjacency lists
(= the number of edge-insertion events that targeted it, since every
insertion event appends exactly one adjacency entry). -/
def GraphInv (st : CState) : Prop :=
  st.verts.Nodup ∧
  (∀ v ∈ st.verts, ∃ f, alookup st.filenameToId f = some v) ∧
  (∀ u, u ∉ st.verts → st.adj u = []) ∧
  (∀ v, v ∉ st.verts → st.deg v = 0) ∧
  (∀ u v, v ∈ st.adj u → v ∈ st.verts) ∧
  (∀ v, st.deg v =
    (st.verts.map (fun u => ((st.adj u).count v : Int))).sum)

theorem graphInv_initial : GraphInv initialC := by
  refine ⟨List.nodup_nil, ?_, ?_, ?_, ?_, ?_⟩ <;> simp [initialC]

theorem getFilenameId_verts (c : CState) (f : String) :
    (getFilenameId c f).1.verts = c.verts := by
  cases h : alookup c.filenameToId f <;> simp [getFilenameId, h]

theorem getFilenameId_adj (c : CState) (f : String) :
    (getFilenameId c f).1.adj = c.adj := by
  cases h : alookup c.filenameToId f <;> simp [getFilenameId, h]

theorem getFilenameId_deg (c : CState) (f : String) :
    (getFilenameId c f).1.deg = c.deg := by
  cases h : alookup c.filenameToId f <;> simp [getFilenameId, h]

theorem getFilenameId_lookup_mono (c : CState) (f : String) {g : String}
    {j : Nat} (hg : alookup c.filenameToId g = some j) :
    alookup (getFilenameId c f).1.filenameToId g = some j := by
  cases h : alookup c.filenameToId f with
  | some id => simpa [getFilenameId, h] using hg
  | none =>
    simp only [getFilenameId, h]
    exact alookup_append_some _ hg

theorem getFilenameId_lookup_self (c : CState) (f : String) :
    alookup (getFilenameId c f).1.filenameToId f
      = some (getFilenameId c f).2 := by
  cases h : alookup c.filenameToId f with
  | some id => simp [getFilenameId, h]
  | none =>
    simp only [getFilenameId, h]
    rw [alookup_append_none _ h]
    simp [alookup]

theorem getFilenameId_inv {c : CState} (hinv : GraphInv c) (f : String) :
    GraphInv (getFilenameId c f).1 := by
  obtain ⟨h1, h2, h3, h4, h5, h6⟩ := hinv
  refine ⟨?_, ?_, ?_, ?_, ?_, ?_⟩
  · rw [getFilenameId_verts]; exact h1
  · rw [getFilenameId_verts]
    intro v hv
    obtain ⟨g, hg⟩ := h2 v hv
    exact ⟨g, getFilenameId_lookup_mono c f hg⟩
  · rw [getFilenameId_verts, getFilenameId_adj]; exact h3
  · rw [getFilenameId_verts, getFilenameId_deg]; exact h4
  · rw [getFilenameId_adj]; intro u v hv
    rw [getFilenameId_verts]; exact h5 u v hv
  · rw [getFilenameId_verts, getFilenameId_adj, getFilenameId_deg]
    exact h6

theorem ensureVertex_filenameToId (st : CState) (v : Nat) :
    (ensureVertex st v).filenameToId = st.filenameToId := by
  unfold ensureVertex; split <;> rfl

theorem ensureVertex_mem (st : CState) (v : Nat) :
    v ∈ (ensureVertex st v).verts := by
  unfold ensureVertex; split
  · assumption
  · simp

theorem ensureVertex_mem_mono (st : CState) (v : Nat) {u : Nat}
    (h : u ∈ st.verts) : u ∈ (ensureVertex st v).verts := by
  unfold ensureVertex; split
  · exact h
  · simp [h]

theorem ensureVertex_inv {st : CState} (hinv : GraphInv st) (v : Nat)
    (hid : ∃ f, alookup st.filenameToId f = some v) :
    GraphInv (ensureVertex st v) := by
  obtain ⟨h1, h2, h3, h4, h5, h6⟩ := hinv
  unfold ensureVertex
  split
  · exact ⟨h1, h2, h3, h4, h5, h6⟩
  · rename_i hv
    refine ⟨?_, ?_, ?_, ?_, ?_, ?_⟩
    · simpa [List.nodup_append, List.disjoint_singleton] using ⟨h1, hv⟩
    · intro u hu
      rcases List.mem_append.mp hu with hu | hu
      · exact h2 u hu
      · have : u = v := by simpa using hu
        exact this ▸ hid
    · intro u hu
      have huv : u ≠ v := fun he => hu (by simp [he])
      have hus : u ∉ st.verts := fun he => hu (by simp [he])
      simp [huv, h3 u hus]
    · intro w hw
      have hwv : w ≠ v := fun he => hw (by simp [he])
      have hws : w ∉ st.verts := fun he => hw (by simp [he])
      simp [hwv, h4 w hws]
    · intro u w hw
      by_cases huv : u = v
      · simp [huv] at hw
      · simp [huv] at hw
        exact List.mem_append_left _ (h5 u w hw)
    · intro w
      have hmap :
          (st.verts.map (fun u =>
            (((if u = v then ([] : List Nat) else st.adj u)).count w
              : Int))).sum
            = (st.verts.map (fun u => ((st.adj u).count w : Int))).sum := by
        congr 1
        apply List.map_congr_left
        intro u hu
        have huv : u ≠ v := fun he => hv (he ▸ hu)
        simp [huv]
      by_cases hwv : w = v
      · subst hwv
        have hcnt : ∀ u ∈ st.verts, (st.adj u).count w = 0 := by
          intro u hu
          exact List.count_eq_zero.mpr (fun hm => hv (h5 u w hm))
        have hsum :
            (st.verts.map (fun u => ((st.adj u).count w : Int))).sum
              = 0 := by
          have := h6 w
          rw [← this]
          exact h4 w hv
        simp only [List.map_append, List.sum_append]
        simp [hmap, hsum]
      · simp only [List.map_append, List.sum_append]
        simp [hmap, hwv, h6 w]

theorem insertEdge_inv {st : CState} (hinv : GraphInv st) {a b : Nat}
    (ha : a ∈ st.verts) (hb : b ∈ st.verts) :
    GraphInv (insertEdge st a b) := by
  obtain ⟨h1, h2, h3, h4, h5, h6⟩ := hinv
  refine ⟨h1, h2, ?_, ?_, ?_, ?_⟩
  · intro u hu
    have hua : u ≠ a := fun he => hu (he ▸ ha)
    simp [insertEdge, hua, h3 u hu]
  · intro w hw
    have hwb : w ≠ b := fun he => hw (he ▸ hb)
    simp [insertEdge, hwb, h4 w hw]
  · intro u w hw
    by_cases hua : u = a
    · subst hua
      simp [insertEdge] at hw
      rcases hw with hw | rfl
      · exact h5 u w hw
      · exact hb
    · simp [insertEdge, hua] at hw
      exact h5 u w hw
  · intro w
    have hupd :
        (st.verts.map (fun u =>
          (((insertEdge st a b).adj u).count w : Int))).sum
          = (st.verts.map (fun u => ((st.adj u).count w : Int))).sum
            + (if w = b then 1 else 0) := by
      apply map_sum_update h1 ha
      · intro u _ hua
        simp [insertEdge, hua]
      · by_cases hwb : w = b
        · subst hwb
          simp [insertEdge, List.count_append]
        · have : (b :: ([] : List Nat)).count w = 0 := by
            simp [List.count_cons]
            exact fun he => hwb he.symm
          simp [insertEdge, List.count_append, this, hwb]
    show (if w = b then st.deg w + 1 else st.deg w) = _
    have hverts : (insertEdge st a b).verts = st.verts := rfl
    rw [hverts, hupd, ← h6 w]
    by_cases hwb : w = b <;> simp [hwb]

theorem recordEdgeMeta_inv {st : CState} (hinv : GraphInv st)
    (a b : Nat) (i : Include) : GraphInv (recordEdgeMeta st a b i) := by
  obtain ⟨h1, h2, h3, h4, h5, h6⟩ := hinv
  unfold recordEdgeMeta
  split
  · exact ⟨h1, h2, h3, h4, h5, h6⟩
  · exact ⟨h1, h2, h3, h4, h5, h6⟩

theorem visit_inv (rel : String → Option String) {st : CState}
    (hinv : GraphInv st) (filename : String) (i : Include) :
    GraphInv (checkCircularImportVisit rel st filename i) := by
  unfold checkCircularImportVisit
  cases hf : rel filename with
  | none => exact hinv
  | some importer =>
    cases hp : rel i.path with
    | none => exact hinv
    | some importee =>
      dsimp only
      have inv1 : GraphInv (getFilenameId st importer).1 :=
        getFilenameId_inv hinv importer
      have inv2 :
          GraphInv (getFilenameId (getFilenameId st importer).1
            importee).1 :=
        getFilenameId_inv inv1 importee
      have hida :
          ∃ f, alookup (getFilenameId (getFilenameId st importer).1
              importee).1.filenameToId f
            = some (getFilenameId st importer).2 :=
        ⟨importer, getFilenameId_lookup_mono _ importee
          (getFilenameId_lookup_self st importer)⟩
      have inv3 := ensureVertex_inv inv2 (getFilenameId st importer).2 hida
      have hidb :
          ∃ f, alookup (ensureVertex
              (getFilenameId (getFilenameId st importer).1 importee).1
              (getFilenameId st importer).2).filenameToId f
            = some (getFilenameId (getFilenameId st importer).1
                importee).2 := by
        rw [ensureVertex_filenameToId]
        exact ⟨importee, getFilenameId_lookup_self _ importee⟩
      have inv4 := ensureVertex_inv inv3
        (getFilenameId (getFilenameId st importer).1 importee).2 hidb
      have ha :
          (getFilenameId st importer).2
            ∈ (ensureVertex (ensureVertex
              (getFilenameId (getFilenameId st importer).1 importee).1
              (getFilenameId st importer).2)
              (getFilenameId (getFilenameId st importer).1
                importee).2).verts :=
        ensureVertex_mem_mono _ _ (ensureVertex_mem _ _)
      have hb :
          (getFilenameId (getFilenameId st importer).1 importee).2
            ∈ (ensureVertex (ensureVertex
              (getFilenameId (getFilenameId st importer).1 importee).1
              (getFilenameId st importer).2)
              (getFilenameId (getFilenameId st importer).1
                importee).2).verts :=
        ensureVertex_mem _ _
      exact recordEdgeMeta_inv (insertEdge_inv inv4 ha hb) _ _ i

theorem foldl_visit_inv (rel : String → Option String) :
    ∀ (events : List (String × Include)) (st : CState), GraphInv st →
      GraphInv (events.foldl
        (fun c e => checkCircularImportVisit rel c e.1 e.2) st) := by
  intro events
  induction events with
  | nil => intro st h; exact h
  | cons e rest ih =>
    intro st h
    exact ih _ (visit_inv rel h e.1 e.2)

/-- Every state the visit function can accumulate satisfies the
structural invariants. -/
theorem runVisits_inv (rel : String → Option String)
    (events : List (String × Include)) :
    GraphInv (runVisits rel events) :=
  foldl_visit_inv rel events initialC graphInv_initial

/-! ## Claim theorems on concrete accumulated graphs. -/

/-- C1: refuted by the code.  The run a→b, a→c, b→d accumulates an acyclic
graph (witnessed by the topological order [1, 2, 3, 4]), yet `lookForCycle`
computes a processed count of 3 for the 4 vertices and reports a cycle: the
worklist-advance slip (`append(sources, v)` instead of
`append(newSources, v)`) drops vertex 2 from the next generation, so edge
2→4 is never relaxed.  The claim (zero diagnostics, `processedCount = |V|`,
verdict independent of the worklist-advance manner) is the evident intent
of the code's own Kahn's-algorithm comment, so this is a code bug. -/
theorem c1_acyclic_graph_flagged_as_cyclic :
    topoOrderOk gAcy.verts gAcy.adj [1, 2, 3, 4] = true ∧
    gAcy.verts.length = 4 ∧
    (lookForCycle gAcy.verts gAcy.adj gAcy.deg).1.2 = 3 ∧
    (lookForCycle gAcy.verts gAcy.adj gAcy.deg).2.2 = true := by decide

/-- C2: refuted by the code.  The run s→x, s→a, a→b, b→a accumulates a
graph with the genuine cycle 3→4→3 (a↔b), yet the re-processing of stale
worklist entries caused by the same worklist-advance slip decrements the
in-degree of vertex 3 twice via the single edge s→a, every vertex is
counted, the verdict is "acyclic", and finalize emits no diagnostics at
all — contradicting the claim that a cyclic graph yields a non-empty
diagnostic sequence tracing a real cycle. -/
theorem c2_cyclic_graph_reported_acyclic :
    isCycleList gCyc.adj [3, 4] = true ∧
    (lookForCycle gCyc.verts gCyc.adj gCyc.deg).2.2 = false ∧
    (checkCircularImportFinalize gCyc).1 = [] := by decide

/-- C3: refuted by the code.  On the acyclic run a→b, a→c, b→d the
topological pass reports a cycle (processed count 3 ≠ 4), but the
cycle-extraction DFS — correctly — finds none, so `findCycleVertices`
falls through to `panic("unreachable (expected a cycle to exist)")`
(modelled as the `none` result). -/
theorem c3_panic_branch_is_reachable :
    (lookForCycle gAcy.verts gAcy.adj gAcy.deg).2.2 = true ∧
    findCycleVertices gAcy.verts gAcy.adj = none := by decide

/-- C4: refuted by the code.  After file a includes c and then b, no
metadata exists for the pair (a, b) even though the edge was inserted and
no metadata had been recorded for that pair before: the guard tests
`edgeMeta[a]` (the importer's whole inner map), not `edgeMeta[a][b]`, so
only an importer's first-ever include is retained.  Consequently, on the
run a→c, a→b, b→a the diagnostic for the cycle edge (a, b) carries a nil
`Include` (first entry of the mapped list below), which the printing code
would dereference. -/
theorem c4_pair_metadata_never_recorded :
    gMeta.adj 1 = [2, 3] ∧
    gMeta.edgeMeta 1 2 = some incC ∧
    gMeta.edgeMeta 1 3 = none ∧
    ((checkCircularImportFinalize gMetaCyc).1.map Diagnostic.inc)
      = [none, some incA] := by decide

/-- C5: counterexample to the "not mutated once finalize begins" part.
On the single-edge run a→b the finalize-time `lookForCycle` decrements the
shared in-degree map in place: vertex 2 enters finalize with in-degree 1
and ends with -1. -/
theorem c5_finalize_mutates_indegree_map :
    gOne.deg 2 = 1 ∧
    (lookForCycle gOne.verts gOne.adj gOne.deg).1.1 2 = -1 ∧
    (lookForCycle gOne.verts gOne.adj gOne.deg).1.1 2 ≠ gOne.deg 2 := by
  decide

/-- C5 (amended): after every sequence of visit calls, every vertex of the
accumulated graph has an assigned id in `filenameToId`, and every vertex's
in-degree equals its occurrence count over all adjacency lists, i.e. the
number of edge-insertion events that targeted it (each successful visit
appends exactly one adjacency entry).  The amendment: the final part of
the original claim is false — finalize's worklist pass decrements the
shared in-degree map in place (see the counterexample above) — while the
adjacency lists and id tables are only read by finalize. -/
theorem c5_amended_visit_invariants (rel : String → Option String)
    (events : List (String × Include)) :
    (∀ v ∈ (runVisits rel events).verts,
      ∃ f, alookup (runVisits rel events).filenameToId f = some v) ∧
    (∀ v, (runVisits rel events).deg v =
      ((runVisits rel events).verts.map
        (fun u => (((runVisits rel events).adj u).count v : Int))).sum) := by
  obtain ⟨h1, h2, h3, h4, h5, h6⟩ := runVisits_inv rel events
  exact ⟨h2, h6⟩

/-- C6: refuted by the code.  The two runs visit the same multiset of
include events — {a→b, a→c, b→d} — merely in a different order, and build
graphs with identical file-name edge multisets; yet one visitation order
yields the verdict "cyclic" and the other "acyclic", because the
worklist-advance slip keeps only the last newly-zeroed vertex of a
generation and which vertex that is depends on adjacency-insertion
order. -/
theorem c6_verdict_depends_on_visit_order :
    evAcy.Perm evAcy2 ∧
    (nameEdges gAcy).Perm (nameEdges gAcy2) ∧
    (lookForCycle gAcy.verts gAcy.adj gAcy.deg).2.2 = true ∧
    (lookForCycle gAcy2.verts gAcy2.adj gAcy2.deg).2.2 = false := by decide

/-- C7: counterexample.  When file a includes the same normalized file b
via two textual paths, the visit function appends unconditionally, so the
adjacency list holds the edge twice — not once as the claim states. -/
theorem c7_duplicate_include_gives_two_entries :
    (gDup.adj 1).count 2 ≠ 1 ∧ gDup.deg 2 = 2 := by decide

/-- C7 (amended): the duplicate include yields two adjacency entries for
the pair and an in-degree of exactly 2; the in-degree equals the number of
edge-insertion (discovery) events, which coincides with the number of
adjacency entries. -/
theorem c7_amended_duplicate_edge_bookkeeping :
    gDup.verts = [1, 2] ∧ gDup.adj 1 = [2, 2] ∧ gDup.deg 2 = 2 ∧
    ((gDup.adj 1).count 2 : Int) = gDup.deg 2 ∧
    alookup gDup.filenameToId "b.thrift" = some 2 := by decide

/-! ## Termination of the finalize pass: the fuel `|V| + 1` is
insensitive to being increased, for every accumulated graph.  The key
measures: `posCount` (vertices with positive in-degree) for the worklist
loop, `unmCount` (vertices not yet globally visited) for the DFS. -/

theorem length_filter_le_filter {α : Type} (p q : α → Bool)
    (l : List α) (h : ∀ a ∈ l, p a = true → q a = true) :
    (l.filter p).length ≤ (l.filter q).length := by
  induction l with
  | nil => simp
  | cons x xs ih =>
    have ih' := ih (fun a ha => h a (List.mem_cons_of_mem _ ha))
    by_cases hp : p x = true
    · have hq := h x (List.mem_cons_self _ _) hp
      simp only [List.filter_cons, hp, hq, if_true, List.length_cons]
      omega
    · have hp' : p x = false := by simpa using hp
      by_cases hq : q x = true
      · simp only [List.filter_cons, hp', hq, if_true,
          Bool.false_eq_true, if_false, List.length_cons]
        omega
      · have hq' : q x = false := by simpa using hq
        simp only [List.filter_cons, hp', hq', Bool.false_eq_true,
          if_false]
        omega

theorem length_filter_lt_filter {α : Type} (p q : α → Bool) (v : α)
    (hqv : q v = true) (hpv : p v = false) :
    ∀ l : List α, (∀ a ∈ l, p a = true → q a = true) → v ∈ l →
      (l.filter p).length < (l.filter q).length := by
  intro l
  induction l with
  | nil => intro _ hv; cases hv
  | cons x xs ih =>
    intro h hv
    have hsub := fun a ha => h a (List.mem_cons_of_mem _ ha)
    rcases List.mem_cons.mp hv with rfl | hmem
    · have := length_filter_le_filter p q xs hsub
      simp only [List.filter_cons, hpv, hqv, if_true,
        Bool.false_eq_true, if_false, List.length_cons]
      omega
    · have hrec := ih hsub hmem
      by_cases hp : p x = true
      · have hq := h x (List.mem_cons_self _ _) hp
        simp only [List.filter_cons, hp, hq, if_true, List.length_cons]
        omega
      · have hp' : p x = false := by simpa using hp
        by_cases hq : q x = true
        · simp only [List.filter_cons, hp', hq, if_true,
            Bool.false_eq_true, if_false, List.length_cons]
          omega
        · have hq' : q x = false := by simpa using hq
          simp only [List.filter_cons, hp', hq', Bool.false_eq_true,
            if_false]
          omega

/-- Generic: a fold whose step preserves a predicate (for the folded
elements) preserves it. -/
theorem foldl_preserve {α β : Type} (P : β → Prop) (F : β → α → β) :
    ∀ (l : List α), (∀ b, ∀ a ∈ l, P b → P (F b a)) →
      ∀ (b : β), P b → P (l.foldl F b) := by
  intro l
  induction l with
  | nil => intro _ b h; exact h
  | cons a as ih =>
    intro hF b h
    exact ih (fun b' a' ha' => hF b' a' (List.mem_cons_of_mem _ ha')) _
      (hF b a (List.mem_cons_self _ _) h)

/-- Generic: two folds agree when their steps agree on all states
reachable under an invariant `P` preserved by the second step. -/
theorem foldl_eq_of_step_eq {α β : Type} (P : β → Prop) (F G : β → α → β) :
    ∀ (l : List α) (b : β), P b →
      (∀ a ∈ l, ∀ c, P c → F c a = G c a ∧ P (G c a)) →
      l.foldl F b = l.foldl G b := by
  intro l
  induction l with
  | nil => intro b _ _; rfl
  | cons a as ih =>
    intro b hP hstep
    have h1 := hstep a (List.mem_cons_self _ _) b hP
    rw [List.foldl_cons, List.foldl_cons, h1.1]
    exact ih (G b a) h1.2
      (fun a' ha' => hstep a' (List.mem_cons_of_mem _ ha'))

/-- Number of vertices with positive in-degree: the termination measure
of the worklist loop. -/
def posCount (verts : List Nat) (deg : Nat → Int) : Nat :=
  (verts.filter (fun v => decide (0 < deg v))).length

theorem posCount_le_length (verts : List Nat) (deg : Nat → Int) :
    posCount verts deg ≤ verts.length :=
  List.length_filter_le _ _

theorem kahnVisitNbr_eq (sources : List Nat)
    (acc : (Nat → Int) × Nat × List Nat) (v : Nat) :
    kahnVisitNbr sources acc v
      = if acc.1 v - 1 = 0
        then (fun x => if x = v then acc.1 x - 1 else acc.1 x,
          acc.2.1 + 1, sources ++ [v])
        else (fun x => if x = v then acc.1 x - 1 else acc.1 x,
          acc.2.1, acc.2.2) := by
  unfold kahnVisitNbr
  simp

theorem kahnVisitNbr_deg (sources : List Nat)
    (acc : (Nat → Int) × Nat × List Nat) (v x : Nat) :
    (kahnVisitNbr sources acc v).1 x
      = if x = v then acc.1 x - 1 else acc.1 x := by
  rw [kahnVisitNbr_eq]
  split <;> rfl

/-- Invariant carried through one worklist generation: in-degrees only
decrease, and a non-empty next worklist witnesses a vertex whose
in-degree went from positive to non-positive. -/
def GenInv (verts : List Nat) (deg0 : Nat → Int)
    (acc : (Nat → Int) × Nat × List Nat) : Prop :=
  (∀ x, acc.1 x ≤ deg0 x) ∧
  (acc.2.2 = [] ∨ ∃ v ∈ verts, 0 < deg0 v ∧ acc.1 v ≤ 0)

theorem kahnVisitNbr_genInv {verts : List Nat} {deg0 : Nat → Int}
    {sources : List Nat} {acc : (Nat → Int) × Nat × List Nat} {v : Nat}
    (hv : v ∈ verts) (hinv : GenInv verts deg0 acc) :
    GenInv verts deg0 (kahnVisitNbr sources acc v) := by
  obtain ⟨hle, hpr⟩ := hinv
  constructor
  · intro x
    rw [kahnVisitNbr_deg]
    have := hle x
    split <;> omega
  · by_cases hz : acc.1 v = 1
    · right
      refine ⟨v, hv, ?_, ?_⟩
      · have := hle v; omega
      · rw [kahnVisitNbr_deg]; split <;> omega
    · have hstay : (kahnVisitNbr sources acc v).2.2 = acc.2.2 := by
        rw [kahnVisitNbr_eq, if_neg (by omega)]
      rcases hpr with hnil | ⟨w, hw, hdw, hw0⟩
      · left; rw [hstay, hnil]
      · right
        refine ⟨w, hw, hdw, ?_⟩
        rw [kahnVisitNbr_deg]
        split <;> omega

theorem kahnGen_genInv (adj : Nat → List Nat) {verts : List Nat}
    (Hadj : ∀ u v, v ∈ adj u → v ∈ verts)
    (sources : List Nat) (deg : Nat → Int) (count : Nat) :
    GenInv verts deg (kahnGen adj sources deg count) := by
  unfold kahnGen
  refine foldl_preserve (GenInv verts deg) _ sources ?_ _
    ⟨fun x => le_refl _, Or.inl rfl⟩
  intro acc u _ hacc
  refine foldl_preserve (GenInv verts deg) _ (adj u) ?_ _ hacc
  intro acc2 v hv hacc2
  exact kahnVisitNbr_genInv (Hadj u v hv) hacc2

/-- A generation that produced a non-empty next worklist strictly
decreases the number of vertices with positive in-degree. -/
theorem kahnGen_posCount_lt (adj : Nat → List Nat) {verts : List Nat}
    (Hadj : ∀ u v, v ∈ adj u → v ∈ verts)
    {sources : List Nat} {deg : Nat → Int} {count : Nat}
    (hprod : (kahnGen adj sources deg count).2.2 ≠ []) :
    posCount verts (kahnGen adj sources deg count).1
      < posCount verts deg := by
  obtain ⟨hle, hpr⟩ := kahnGen_genInv adj Hadj sources deg count
  rcases hpr with h | ⟨v, hv, hdv, hv0⟩
  · exact absurd h hprod
  · unfold posCount
    refine length_filter_lt_filter _ _ v ?_ ?_ verts ?_ hv
    · simpa using hdv
    · simp only [decide_eq_false_iff_not]
      omega
    · intro a _ hp
      simp only [decide_eq_true_eq] at hp ⊢
      have := hle a
      omega

theorem kahnLoop_nil (adj : Nat → List Nat) (fuel : Nat)
    (deg : Nat → Int) (count : Nat) :
    kahnLoop adj fuel [] deg count = (deg, count) := by
  cases fuel <;> simp [kahnLoop]

/-- One extra unit of fuel does not change the worklist loop's result once
the fuel exceeds the number of vertices with positive in-degree. -/
theorem kahnLoop_stable (adj : Nat → List Nat) {verts : List Nat}
    (Hadj : ∀ u v, v ∈ adj u → v ∈ verts) :
    ∀ (fuel : Nat) (sources : List Nat) (deg : Nat → Int) (count : Nat),
      posCount verts deg < fuel →
      kahnLoop adj (fuel + 1) sources deg count
        = kahnLoop adj fuel sources deg count := by
  intro fuel
  induction fuel with
  | zero => intro s d c h; exact absurd h (Nat.not_lt_zero _)
  | succ fuel ih =>
    intro s d c h
    by_cases hs : s = []
    · subst hs; rw [kahnLoop_nil, kahnLoop_nil]
    · show kahnLoop adj (fuel + 1 + 1) s d c = kahnLoop adj (fuel + 1) s d c
      rw [show kahnLoop adj (fuel + 1 + 1) s d c
          = if s = [] then (d, c)
            else kahnLoop adj (fuel + 1) (kahnGen adj s d c).2.2
              (kahnGen adj s d c).1 (kahnGen adj s d c).2.1 from rfl,
        show kahnLoop adj (fuel + 1) s d c
          = if s = [] then (d, c)
            else kahnLoop adj fuel (kahnGen adj s d c).2.2
              (kahnGen adj s d c).1 (kahnGen adj s d c).2.1 from rfl,
        if_neg hs, if_neg hs]
      by_cases hprod : (kahnGen adj s d c).2.2 = []
      · rw [hprod, kahnLoop_nil, kahnLoop_nil]
      · have hlt := kahnGen_posCount_lt adj Hadj hprod
        exact ih _ _ _ (by omega)

/-- Any fuel beyond the bound gives the same worklist-loop result. -/
theorem kahnLoop_add (adj : Nat → List Nat) {verts : List Nat}
    (Hadj : ∀ u v, v ∈ adj u → v ∈ verts) {fuel : Nat}
    {deg : Nat → Int} (hd : posCount verts deg < fuel)
    (sources : List Nat) (count : Nat) :
    ∀ k, kahnLoop adj (fuel + k) sources deg count
      = kahnLoop adj fuel sources deg count := by
  intro k
  induction k with
  | zero => rfl
  | succ k ih =>
    have hstep := kahnLoop_stable adj Hadj (fuel + k) sources deg count
      (lt_of_lt_of_le hd (Nat.le_add_right _ _))
    calc kahnLoop adj (fuel + (k + 1)) sources deg count
        = kahnLoop adj (fuel + k + 1) sources deg count := rfl
      _ = kahnLoop adj (fuel + k) sources deg count := hstep
      _ = kahnLoop adj fuel sources deg count := ih

/-- Let-free unfolding of `lookForCycleF`, for rewriting. -/
theorem lookForCycleF_eq (kfuel dfuel : Nat) (verts : List Nat)
    (adj : Nat → List Nat) (deg : Nat → Int) :
    lookForCycleF kfuel dfuel verts adj deg
      = if (kahnLoop adj kfuel
            (verts.filter (fun v => decide (deg v = 0))) deg
            (verts.filter (fun v => decide (deg v = 0))).length).2
            ≠ verts.length
        then (kahnLoop adj kfuel
            (verts.filter (fun v => decide (deg v = 0))) deg
            (verts.filter (fun v => decide (deg v = 0))).length,
          findCycleVerticesF dfuel verts adj, true)
        else (kahnLoop adj kfuel
            (verts.filter (fun v => decide (deg v = 0))) deg
            (verts.filter (fun v => decide (deg v = 0))).length,
          none, false) := rfl

/-- Number of vertices not yet globally visited: the termination measure
of the cycle-extraction DFS. -/
def unmCount (verts : List Nat) (g : Nat → Bool) : Nat :=
  (verts.filter (fun v => !(g v))).length

theorem unmCount_le_length (verts : List Nat) (g : Nat → Bool) :
    unmCount verts g ≤ verts.length :=
  List.length_filter_le _ _

theorem markT_mono (g : Nat → Bool) (v x : Nat) (h : g x = true) :
    markT g v x = true := by
  unfold markT; split <;> simp [h]

theorem unmCount_le_of_mono {verts : List Nat} {g1 g2 : Nat → Bool}
    (h : ∀ x, g1 x = true → g2 x = true) :
    unmCount verts g2 ≤ unmCount verts g1 := by
  refine length_filter_le_filter _ _ verts ?_
  intro a _ hp
  by_cases hg : g1 a = true
  · simp [h a hg] at hp
  · cases hgb : g1 a
    · simp
    · exact absurd hgb hg

theorem unmCount_markT_lt {verts : List Nat} {g : Nat → Bool} {v : Nat}
    (hv : v ∈ verts) (hg : g v = false) :
    unmCount verts (markT g v) < unmCount verts g := by
  refine length_filter_lt_filter _ _ v ?_ ?_ verts ?_ hv
  · simp [hg]
  · simp [markT]
  · intro a _ hp
    simp only [markT] at hp
    by_cases hav : a = v
    · simp [hav] at hp
    · simpa [hav] using hp

theorem dfsF_succ (adj : Nat → List Nat) (fuel cur : Nat)
    (vertices : List Nat) (vis gvis : Nat → Bool) :
    dfsF adj (fuel + 1) cur vertices vis gvis
      = match (if vis cur then pathSuffix vertices cur else none) with
        | some cyc => (some cyc, vis, gvis)
        | none =>
          if gvis cur then (none, vis, gvis)
          else
            (adj cur).foldl
              (fun acc v =>
                match acc.1 with
                | some _ => acc
                | none =>
                  dfsF adj fuel v (vertices ++ [cur]) acc.2.1 acc.2.2)
              (none, markT vis cur, markT gvis cur) := rfl

/-- The DFS only ever adds vertices to the global visited set. -/
theorem dfsF_gvis_mono (adj : Nat → List Nat) :
    ∀ (fuel cur : Nat) (vertices : List Nat) (vis gvis : Nat → Bool)
      (x : Nat), gvis x = true →
      (dfsF adj fuel cur vertices vis gvis).2.2 x = true := by
  intro fuel
  induction fuel with
  | zero => intro _ _ _ _ x hx; exact hx
  | succ fuel ih =>
    intro cur vertices vis gvis x hx
    rw [dfsF_succ]
    cases hm : (if vis cur then pathSuffix vertices cur else none) with
    | some cyc => exact hx
    | none =>
      by_cases hg : gvis cur = true
      · rw [if_pos hg]; exact hx
      · rw [if_neg hg]
        refine foldl_preserve
          (fun (acc : Option (List Nat) × (Nat → Bool) × (Nat → Bool)) =>
            acc.2.2 x = true) _ (adj cur) ?_ _
          (markT_mono gvis cur x hx)
        intro b a _ hb
        cases hb1 : b.1 with
        | some r => simpa [hb1] using hb
        | none =>
          simp only [hb1]
          exact ih a (vertices ++ [cur]) b.2.1 b.2.2 x hb

/-- One extra unit of DFS fuel does not change the result once the fuel
exceeds the number of not-yet-visited vertices. -/
theorem dfsF_stable (adj : Nat → List Nat) {verts : List Nat}
    (Hadj : ∀ u v, v ∈ adj u → v ∈ verts) :
    ∀ (fuel cur : Nat) (vertices : List Nat) (vis gvis : Nat → Bool),
      cur ∈ verts → unmCount verts gvis < fuel →
      dfsF adj (fuel + 1) cur vertices vis gvis
        = dfsF adj fuel cur vertices vis gvis := by
  intro fuel
  induction fuel with
  | zero => intro _ _ _ _ hcur h; exact absurd h (Nat.not_lt_zero _)
  | succ fuel ih =>
    intro cur vertices vis gvis hcur hunm
    rw [dfsF_succ adj (fuel + 1), dfsF_succ adj fuel]
    cases hm : (if vis cur then pathSuffix vertices cur else none) with
    | some cyc => rfl
    | none =>
      by_cases hg : gvis cur = true
      · rw [if_pos hg, if_pos hg]
      · rw [if_neg hg, if_neg hg]
        have hgv : gvis cur = false := by
          cases hgb : gvis cur
          · rfl
          · exact absurd hgb hg
        have hinit : unmCount verts (markT gvis cur) < fuel := by
          have := unmCount_markT_lt hcur hgv
          omega
        refine foldl_eq_of_step_eq
          (fun (acc : Option (List Nat) × (Nat → Bool) × (Nat → Bool)) =>
            unmCount verts acc.2.2 < fuel) _ _ (adj cur) _
          hinit ?_
        intro a ha c hc
        constructor
        · cases hc1 : c.1 with
          | some r => rfl
          | none =>
            simp only [hc1]
            exact ih a (vertices ++ [cur]) c.2.1 c.2.2
              (Hadj cur a ha) hc
        · cases hc1 : c.1 with
          | some r => simpa [hc1] using hc
          | none =>
            simp only [hc1]
            exact lt_of_le_of_lt
              (unmCount_le_of_mono
                (fun x hx => dfsF_gvis_mono adj fuel a
                  (vertices ++ [cur]) c.2.1 c.2.2 x hx)) hc

/-- Any DFS fuel beyond the bound gives the same result. -/
theorem dfsF_add (adj : Nat → List Nat) {verts : List Nat}
    (Hadj : ∀ u v, v ∈ adj u → v ∈ verts) {fuel cur : Nat}
    (vertices : List Nat) (vis : Nat → Bool) {gvis : Nat → Bool}
    (hcur : cur ∈ verts) (hunm : unmCount verts gvis < fuel) :
    ∀ k, dfsF adj (fuel + k) cur vertices vis gvis
      = dfsF adj fuel cur vertices vis gvis := by
  intro k
  induction k with
  | zero => rfl
  | succ k ih =>
    calc dfsF adj (fuel + (k + 1)) cur vertices vis gvis
        = dfsF adj (fuel + k + 1) cur vertices vis gvis := rfl
      _ = dfsF adj (fuel + k) cur vertices vis gvis :=
          dfsF_stable adj Hadj (fuel + k) cur vertices vis gvis hcur
            (lt_of_lt_of_le hunm (Nat.le_add_right _ _))
      _ = dfsF adj fuel cur vertices vis gvis := ih

/-- Any cycle-extraction fuel beyond `|V| + 1` gives the same result. -/
theorem findCycleVerticesF_add (verts : List Nat) (adj : Nat → List Nat)
    (Hadj : ∀ u v, v ∈ adj u → v ∈ verts) (k : Nat) :
    findCycleVerticesF (verts.length + 1 + k) verts adj
      = findCycleVerticesF (verts.length + 1) verts adj := by
  unfold findCycleVerticesF
  congr 1
  refine foldl_eq_of_step_eq (fun _ => True) _ _ verts _ trivial ?_
  intro a ha c _
  refine ⟨?_, trivial⟩
  cases hc1 : c.1 with
  | some r => rfl
  | none =>
    simp only [hc1]
    have hdfs : dfsF adj (verts.length + 1 + k) a [] (fun _ => false) c.2
        = dfsF adj (verts.length + 1) a [] (fun _ => false) c.2 :=
      dfsF_add adj Hadj [] (fun _ => false) ha
        (lt_of_le_of_lt (unmCount_le_length verts c.2)
          (Nat.lt_succ_self _)) k
    rw [hdfs]

/-- C8: confirmed.  If normalization of either the importer path or the
importee path fails, the visit function returns the shared state unchanged
(no vertex, edge, in-degree, id or metadata update, and no error). -/
theorem c8_norm_failure_skips_edge_silently (rel : String → Option String)
    (st : CState) (filename : String) (i : Include)
    (h : rel filename = none ∨ rel i.path = none) :
    checkCircularImportVisit rel st filename i = st := by
  rcases h with h | h
  · simp [checkCircularImportVisit, h]
  · cases hf : rel filename <;> simp [checkCircularImportVisit, hf, h]

/-- C8 witness: a concrete skipped edge leaves the fresh state intact. -/
theorem c8_norm_failure_skips_edge_silently_witness :
    checkCircularImportVisit relNone initialC "a.thrift" incB = initialC :=
  c8_norm_failure_skips_edge_silently relNone initialC "a.thrift" incB
    (Or.inl rfl)

/-- C9: confirmed.  For a well-formed filename table (ids 1, 2, 3, … in
order of first sight — true of every reachable state), `getFilenameId`
(a) preserves well-formedness, so fresh ids keep being handed out in
strictly increasing sequence in order of first sight, (b) is idempotent:
an immediate second call with the same path returns the same id and the
same state, (c) assigns exactly the next id `len + 1` on first sight, and
(d) never disturbs previously assigned ids. -/
theorem c9_filename_ids_stable_and_sequential (st : CState) (f : String)
    (hwf : FWf st.filenameToId) :
    FWf (getFilenameId st f).1.filenameToId ∧
    getFilenameId (getFilenameId st f).1 f = getFilenameId st f ∧
    (alookup st.filenameToId f = none →
      (getFilenameId st f).2 = st.filenameToId.length + 1) ∧
    (∀ g j, alookup st.filenameToId g = some j →
      alookup (getFilenameId st f).1.filenameToId g = some j) := by
  cases hl : alookup st.filenameToId f with
  | some id =>
    refine ⟨?_, ?_, ?_, ?_⟩
    · simpa [getFilenameId, hl] using hwf
    · simp [getFilenameId, hl]
    · intro hn; simp [hl] at hn
    · intro g j hg; simpa [getFilenameId, hl] using hg
  | none =>
    have hlook : alookup
        (st.filenameToId ++ [(f, st.filenameToId.length + 1)]) f
        = some (st.filenameToId.length + 1) := by
      rw [alookup_append_none _ hl]; simp [alookup]
    refine ⟨?_, ?_, ?_, ?_⟩
    · simp only [getFilenameId, hl]
      exact fwfFrom_append 0 st.filenameToId hwf (by simp [FWfFrom])
    · simp [getFilenameId, hl, hlook]
    · intro _; simp [getFilenameId, hl]
    · intro g j hg
      simp only [getFilenameId, hl]
      exact alookup_append_some _ hg

/-- C9 witness: on the fresh state, the path "a.thrift" gets id 1 and an
immediate second call returns the same id and state. -/
theorem c9_filename_ids_witness :
    getFilenameId (getFilenameId initialC "a.thrift").1 "a.thrift"
      = getFilenameId initialC "a.thrift" :=
  (c9_filename_ids_stable_and_sequential initialC "a.thrift"
    True.intro).2.1

/-- C10: confirmed.  Finalize terminates on every accumulated graph: the
worklist loop and the cycle-extraction DFS are given fuel `|V| + 1`, and
on every state the visit function can accumulate, any surplus fuel
(`k1`/`k2` extra generations or recursion depth) is never consumed — the
fueled run equals the bounded run, i.e. the worklist becomes empty and the
DFS bottoms out within the bound.  The bound holds because each vertex's
in-degree reaches zero at most once (so at most `posCount` generations are
productive, and an unproductive generation empties the worklist), and the
global visited set grows on every proper DFS descent. -/
theorem c10_finalize_terminates (rel : String → Option String)
    (events : List (String × Include)) (k1 k2 : Nat) :
    lookForCycleF ((runVisits rel events).verts.length + 1 + k1)
        ((runVisits rel events).verts.length + 1 + k2)
        (runVisits rel events).verts (runVisits rel events).adj
        (runVisits rel events).deg
      = lookForCycle (runVisits rel events).verts
          (runVisits rel events).adj (runVisits rel events).deg := by
  obtain ⟨h1, h2, h3, h4, h5, h6⟩ := runVisits_inv rel events
  unfold lookForCycle
  rw [lookForCycleF_eq, lookForCycleF_eq,
    kahnLoop_add (runVisits rel events).adj h5
      (show posCount (runVisits rel events).verts
            (runVisits rel events).deg
          < (runVisits rel events).verts.length + 1 from
        lt_of_le_of_lt (posCount_le_length _ _) (by omega)) _ _ k1,
    findCycleVerticesF_add (runVisits rel events).verts
      (runVisits rel events).adj h5 k2]

end Thriftcheck
